import Mathlib

/-!
Verification development for the wikimark redirector
(`src/redirector/main.js`).  The file embeds the core pipeline of the
program — token classification, SPARQL query construction, result
normalization (`transformSparqlResponse`) and the load-handler decision
logic — as executable Lean definitions, and proves the specified
properties about them.

Modelling conventions:
* JavaScript's insertion-ordered object used as an entity map is
  modelled as an insertion-ordered association list `List (String × Entity)`
  (keys are entity URIs, which are not integer-like strings and do not
  collide with `Object.prototype` members, so plain-object key order is
  insertion order).
* `new URL(s)` is modelled by `parseURL`, a shallow model of the WHATWG
  URL parser restricted to what the program uses: it extracts the
  (lowercased) scheme and hostname of an absolute `scheme://host...`
  string and fails (`none`) otherwise, mirroring the `TypeError` thrown
  by `new URL` on strings it cannot parse.
* A thrown JavaScript exception is modelled by `Option`: `none` means
  the computation aborted with an exception.
* The JavaScript `undefined` produced by a failed rank lookup is
  modelled by `Option Nat` (`none` = `undefined`).
-/

set_option autoImplicit false

namespace Wikimark

/-- Model of the relevant part of a WHATWG `URL` object: the parsed
scheme, the lowercased hostname, and the remainder of the URL text. -/
structure URLModel where
  scheme : String
  hostname : String
  rest : String
deriving Repr, DecidableEq, Inhabited

/-- Split a character list at the first occurrence of `sep`, returning
the part before and the part after the separator. -/
def splitFirstAt (sep : List Char) : List Char → Option (List Char × List Char)
  | [] => none
  | c :: cs =>
    if sep.isPrefixOf (c :: cs) then some ([], (c :: cs).drop sep.length)
    else
      match splitFirstAt sep cs with
      | some (l, r) => some (c :: l, r)
      | none => none

/-- Shallow model of `new URL(s)` as used by the program: an absolute
URL `scheme://host...` with a nonempty alphabetic scheme and a nonempty
host.  Returns `none` (models the thrown `TypeError`) when the string
does not have this shape. -/
def parseURL (s : String) : Option URLModel :=
  match splitFirstAt "://".data s.data with
  | none => none
  | some (sch, rest) =>
    if sch.isEmpty || !(sch.all Char.isAlpha) then none
    else
      let host := rest.takeWhile (fun c => !(c == '/' || c == '?' || c == '#' || c == ':'))
      if host.isEmpty then none
      else
        some { scheme := String.mk (sch.map Char.toLower),
               hostname := String.mk (host.map Char.toLower),
               rest := String.mk (rest.drop host.length) }

/-- `isOnion(url)` from the source: the URL's hostname ends with
`".onion"` (expressed on the character list of the hostname). -/
def isOnion (url : URLModel) : Bool :=
  ".onion".data.isSuffixOf url.hostname.data

/-- The `Rank` enum from the source (`Object.freeze({...})`). -/
def Rank.PREFERRED : Nat := 1

/-- `Rank.NORMAL` from the source enum. -/
def Rank.NORMAL : Nat := 2

/-- `Rank.DEPRECATED` from the source enum. -/
def Rank.DEPRECATED : Nat := 100

/-- `parseRank(rank)` from the source: look the rank code up in
`RANK_MAP`; an unknown code yields `undefined`, modelled as `none`. -/
def parseRank (rank : String) : Option Nat :=
  if rank == "http://wikiba.se/ontology#PreferredRank" then some Rank.PREFERRED
  else if rank == "http://wikiba.se/ontology#NormalRank" then some Rank.NORMAL
  else if rank == "http://wikiba.se/ontology#DeprecatedRank" then some Rank.DEPRECATED
  else none

/-- One SPARQL result row (`binding`), with the `.value` fields the
program reads flattened into plain strings. -/
structure Binding where
  item : String
  itemLabel : String
  itemDescription : String
  website : String
  rank : String
deriving Repr, DecidableEq

/-- One entry of an entity's `websites` list: the parsed URL and the
(possibly `undefined`) rank. -/
structure Destination where
  url : URLModel
  rank : Option Nat
deriving Repr, DecidableEq

/-- One value of the `entities` object built by
`transformSparqlResponse`. -/
structure Entity where
  label : String
  description : String
  websites : List Destination
deriving Repr, DecidableEq

/-- The insertion-ordered `entities` object: an association list from
entity URI to `Entity`, in insertion order. -/
abbrev EntityMap := List (String × Entity)

/-- Model of `itemUri in entities`: is the key present in the map? -/
def containsKey (m : EntityMap) (uri : String) : Bool :=
  m.any (fun p => p.1 == uri)

/-- Lookup of `entities[uri]` (first entry with the given key). -/
def lookupEnt : EntityMap → String → Option Entity
  | [], _ => none
  | (k, e) :: rest, uri => if k == uri then some e else lookupEnt rest uri

/-- Model of `entities[itemUri].websites.push(d)`: append `d` to the
websites of the (first) entry with key `uri`. -/
def appendWebsite : EntityMap → String → Destination → EntityMap
  | [], _, _ => []
  | (k, e) :: rest, uri, d =>
    if k == uri then (k, { e with websites := e.websites ++ [d] }) :: rest
    else (k, e) :: appendWebsite rest uri d

/-- One iteration of the `for (const binding of ...)` loop body of
`transformSparqlResponse`: parse the destination URL (abort on
failure), skip onion rows, create the entity on first sight of its URI,
and push the destination. -/
def transformStep (entities : EntityMap) (b : Binding) : Option EntityMap :=
  match parseURL b.website with
  | none => none
  | some websiteUrl =>
    if isOnion websiteUrl then some entities
    else
      let entities1 :=
        if containsKey entities b.item then entities
        else entities ++ [(b.item, { label := b.itemLabel, description := b.itemDescription,
                                     websites := [] })]
      some (appendWebsite entities1 b.item { url := websiteUrl, rank := parseRank b.rank })

/-- The loop of `transformSparqlResponse`, with the accumulated
`entities` object made explicit; `none` models an exception escaping
the loop. -/
def transformGo (entities : EntityMap) : List Binding → Option EntityMap
  | [] => some entities
  | b :: bs =>
    match transformStep entities b with
    | none => none
    | some entities2 => transformGo entities2 bs

/-- `transformSparqlResponse(response)` from the source, applied to the
row list `response.results.bindings`. -/
def transformSparqlResponse (bindings : List Binding) : Option EntityMap :=
  transformGo [] bindings

/-- `isEmpty(obj)` from the source (`for..in` loop that returns `false`
on the first key). -/
def isEmpty (m : EntityMap) : Bool :=
  match m with
  | [] => true
  | _ :: _ => false

/-- The scan performed by `query.match(/q[0-9]+/i)`: is there a `q` or
`Q` immediately followed by a digit anywhere in the character list? -/
def qDigitScan : List Char → Bool
  | c :: d :: rest => ((c == 'q' || c == 'Q') && d.isDigit) || qDigitScan (d :: rest)
  | _ => false

/-- The token classification test of the load handler:
`query.match(/q[0-9]+/i)` is truthy. -/
def isDirectLookup (query : String) : Bool :=
  qDigitScan query.data

/-- The `BASE_HOST` global constant ("localhost:8080" in the checked-in
configuration; the source comment lists "wikimark.net" as the other
sample value).  Functions that read it are parameterized over it here. -/
def BASE_HOST : String := "localhost:8080"

/-- Text of `prepareSparqlSearchQuery`'s template literal before the
`${term}` hole. -/
def searchQueryPre : String :=
  "\n    SELECT DISTINCT ?item ?itemLabel ?itemDescription ?website ?endDate ?rank\n    WHERE \x7b\n      SERVICE wikibase:mwapi \x7b\n        bd:serviceParam wikibase:api \"Search\" .\n        bd:serviceParam wikibase:endpoint \"www.wikidata.org\" .\n        bd:serviceParam mwapi:srsearch \""

/-- Text of `prepareSparqlSearchQuery`'s template literal after the
`${term}` hole. -/
def searchQueryPost : String :=
  "\" .\n        ?item wikibase:apiOutputItem mwapi:title .\n        ?num wikibase:apiOrdinal true .\n      \x7d\n      SERVICE wikibase:label \x7b\n        bd:serviceParam wikibase:language \"en\" .\n        ?item rdfs:label ?itemLabel .\n        ?item schema:description ?itemDescription .\n      \x7d\n      \n      ?item p:P856 ?statement .\n      ?statement ps:P856 ?website .\n      ?statement wikibase:rank ?rank .\n      FILTER NOT EXISTS \x7b\n        ?statement pq:P582 ?endDate .\n      \x7d\n      FILTER(?rank != wikibase:DeprecatedRank)\n      FILTER(BOUND(?itemLabel))\n      FILTER(BOUND(?itemDescription))\n    \x7d\n    ORDER BY ASC(?num) DESC(?rank)\n    LIMIT 20\n  "

/-- `prepareSparqlSearchQuery(term)`: the template literal with `term`
interpolated at its single hole. -/
def prepareSparqlSearchQuery (term : String) : String :=
  searchQueryPre ++ term ++ searchQueryPost

/-- Text of `prepareSparqlLookupQuery`'s template literal before the
single hole holding the uppercased id. -/
def lookupQueryPre : String :=
  "\n    SELECT DISTINCT ?item ?itemLabel ?itemDescription ?website ?endDate ?rank\n    WHERE \x7b\n      BIND(wd:"

/-- Text of `prepareSparqlLookupQuery`'s template literal after the
hole. -/
def lookupQueryPost : String :=
  " AS ?item)\n    \n      SERVICE wikibase:label \x7b\n        bd:serviceParam wikibase:language \"en\" .\n        ?item rdfs:label ?itemLabel .\n        ?item schema:description ?itemDescription .\n      \x7d\n    \n      ?item p:P856 ?statement .\n      ?statement ps:P856 ?website .\n      ?statement wikibase:rank ?rank .\n      FILTER NOT EXISTS \x7b\n        ?statement pq:P582 ?endDate .\n      \x7d\n      FILTER(?rank != wikibase:DeprecatedRank)\n      FILTER(BOUND(?itemLabel))\n      FILTER(BOUND(?itemDescription))\n    \x7d\n    ORDER BY DESC(?rank)\n    LIMIT 20\n  "

/-- `prepareSparqlLookupQuery(id)`: the template literal with
`id.toUpperCase()` interpolated at its single hole. -/
def prepareSparqlLookupQuery (id : String) : String :=
  lookupQueryPre ++ id.toUpper ++ lookupQueryPost

/-- A JavaScript regular-expression line terminator (not matched by
`.`): LF, CR, U+2028, U+2029. -/
def isLineTerm (c : Char) : Bool :=
  c.val == 10 || c.val == 13 || c.val == 0x2028 || c.val == 0x2029

/-- The match-and-capture of `/^.*\/entity\/(Q[0-9]+)$/.exec(uri)`:
the (maximal) digit suffix `ds` of `uri` must be nonempty, what
precedes it must end in `"/entity/Q"`, and `.` forbids line
terminators; the capture is `Q` followed by the digits.  `none` models
a failed match (on which the source's `[1]` access throws). -/
def entityQidMatch (uri : String) : Option (List Char) :=
  let cs := uri.data
  let ds := (cs.reverse.takeWhile Char.isDigit).reverse
  let stem := (cs.reverse.dropWhile Char.isDigit).reverse
  if ds.isEmpty then none
  else if ("/entity/Q".data.isSuffixOf stem) && cs.all (fun c => !(isLineTerm c)) then
    some ('Q' :: ds)
  else none

/-- `generatePermalink(uri)`: lowercase the captured Q-id and build
`//<qid>.<BASE_HOST>`, parameterized over the base host; `none` models
the exception thrown when the regular expression does not match. -/
def generatePermalink (baseHost uri : String) : Option String :=
  match entityQidMatch uri with
  | none => none
  | some qid => some ("//" ++ String.mk (qid.map Char.toLower) ++ "." ++ baseHost)

/-- Whether the load handler schedules a `setTimeout` navigation, and
with which delay and target. -/
inductive Navigation where
  | noNav : Navigation
  | scheduled : Nat → Option URLModel → Navigation
deriving Repr, DecidableEq

/-- Observable outcome of one run of the load handler: the final status
text, the navigation decision, and the results passed to
`displayResults` (if reached). -/
structure Outcome where
  status : String
  nav : Navigation
  displayed : Option EntityMap
deriving Repr, DecidableEq

/-- The navigation target computed at line 79-80 of the source:
`Object.entries(results)[0]`, then `item.websites[0].url`; `none`
models the exception on a missing entry. -/
def navTarget (results : EntityMap) : Option URLModel :=
  match results.head? with
  | none => none
  | some (_, item) =>
    match item.websites.head? with
    | none => none
    | some d => some d.url

/-- The decision logic of the `load` event handler, with the outside
world made explicit: `respOk` is `response.ok`, `bindings` the parsed
response rows, `navigatedBack` the result of `didNavigateBack()`.
Returns `none` when the handler dies on an uncaught exception. -/
def loadHandler (query : String) (respOk : Bool) (bindings : List Binding)
    (navigatedBack : Bool) : Option Outcome :=
  let delay : Nat := if isDirectLookup query then 0 else 1000
  if !respOk then
    some { status := "Search failed!", nav := Navigation.noNav, displayed := none }
  else
    match transformSparqlResponse bindings with
    | none => none
    | some results =>
      if isEmpty results then
        some { status := "Not found.", nav := Navigation.noNav, displayed := none }
      else if navigatedBack then
        some { status := "Found.", nav := Navigation.noNav, displayed := some results }
      else
        some { status := "Redirecting...",
               nav := Navigation.scheduled delay (navTarget results),
               displayed := some results }

/-!
Specification-side definitions.  These restate, in direct functional
form, what one pass of the normalizer loop does to a single entity URI;
the refinement lemmas below prove that `transformSparqlResponse` agrees
with them.
-/

/-- The destination a row contributes, or `none` if the row is dropped
(onion host) or its URL does not parse. -/
def rowDest (b : Binding) : Option Destination :=
  match parseURL b.website with
  | none => none
  | some u => if isOnion u then none else some { url := u, rank := parseRank b.rank }

/-- A row survives normalization: its URL parses and is not an onion
address. -/
def keepRow (b : Binding) : Bool :=
  (rowDest b).isSome

/-- All destinations contributed to entity `uri` by the rows, in row
order. -/
def specDests : List Binding → String → List Destination
  | [], _ => []
  | b :: bs, uri =>
    match rowDest b with
    | none => specDests bs uri
    | some d => if b.item == uri then d :: specDests bs uri else specDests bs uri

/-- The first surviving row carrying entity `uri` (the row whose label
and description the created entity takes). -/
def firstKept : List Binding → String → Option Binding
  | [], _ => none
  | b :: bs, uri => if keepRow b && b.item == uri then some b else firstKept bs uri

/-- Membership test used by `specKeysFrom`. -/
def seenHas : List String → String → Bool
  | [], _ => false
  | s :: rest, x => s == x || seenHas rest x

/-- Entity URIs in first-seen order among surviving rows, given the
URIs already present. -/
def specKeysFrom (seen : List String) : List Binding → List String
  | [] => []
  | b :: bs =>
    if keepRow b then
      if seenHas seen b.item then specKeysFrom seen bs
      else b.item :: specKeysFrom (b.item :: seen) bs
    else specKeysFrom seen bs

/-!
Concrete test data: the spec's concrete scenario (§8.6) and a few other
rows used by witnesses.
-/

/-- Rank code string for `PreferredRank`. -/
def preferredCode : String := "http://wikiba.se/ontology#PreferredRank"

/-- Rank code string for `NormalRank`. -/
def normalCode : String := "http://wikiba.se/ontology#NormalRank"

/-- Row 1 of the spec scenario: E1 → http://a.example/ (PREFERRED). -/
def rowE1a : Binding :=
  { item := "E1", itemLabel := "E1 label", itemDescription := "E1 desc",
    website := "http://a.example/", rank := preferredCode }

/-- Row 2 of the spec scenario: E2 → http://b.example/ (NORMAL). -/
def rowE2b : Binding :=
  { item := "E2", itemLabel := "E2 label", itemDescription := "E2 desc",
    website := "http://b.example/", rank := normalCode }

/-- Row 3 of the spec scenario: E1 → http://x.onion/ (PREFERRED). -/
def rowE1onion : Binding :=
  { item := "E1", itemLabel := "E1 label", itemDescription := "E1 desc",
    website := "http://x.onion/", rank := preferredCode }

/-- The spec's concrete scenario row sequence. -/
def scenarioRows : List Binding := [rowE1a, rowE2b, rowE1onion]

/-- Parsed form of `http://a.example/`. -/
def aExampleURL : URLModel := { scheme := "http", hostname := "a.example", rest := "/" }

/-- Parsed form of `http://b.example/`. -/
def bExampleURL : URLModel := { scheme := "http", hostname := "b.example", rest := "/" }

/-- The entity expected for E1 in the scenario result. -/
def entE1a : Entity :=
  { label := "E1 label", description := "E1 desc",
    websites := [{ url := aExampleURL, rank := some Rank.PREFERRED }] }

/-- The entity expected for E2 in the scenario result. -/
def entE2b : Entity :=
  { label := "E2 label", description := "E2 desc",
    websites := [{ url := bExampleURL, rank := some Rank.NORMAL }] }

/-- The entity map the scenario is expected to produce. -/
def scenarioMap : EntityMap := [("E1", entE1a), ("E2", entE2b)]

/-- A row whose rank code is not one of the three known codes. -/
def rowE1unknown : Binding :=
  { item := "E1", itemLabel := "E1 label", itemDescription := "E1 desc",
    website := "http://a.example/", rank := "mystery" }

/-- The entity produced from `rowE1unknown` alone: the destination is
kept, its rank is `undefined`. -/
def entE1unknown : Entity :=
  { label := "E1 label", description := "E1 desc",
    websites := [{ url := aExampleURL, rank := none }] }

/-- A row whose destination URL string does not parse. -/
def rowBadURL : Binding :=
  { item := "E3", itemLabel := "E3 label", itemDescription := "E3 desc",
    website := "not a url", rank := preferredCode }

/-!
Helper lemmas about the association-list entity map.
-/

theorem appendWebsite_keys (m : EntityMap) (k : String) (d : Destination) :
    (appendWebsite m k d).map Prod.fst = m.map Prod.fst := by
  induction m with
  | nil => rfl
  | cons p rest ih =>
    obtain ⟨k', e⟩ := p
    by_cases h : k' = k <;> simp [appendWebsite, h, ih]

theorem lookupEnt_appendWebsite_self (m : EntityMap) (k : String) (d : Destination) :
    lookupEnt (appendWebsite m k d) k =
      (lookupEnt m k).map (fun e => { e with websites := e.websites ++ [d] }) := by
  induction m with
  | nil => rfl
  | cons p rest ih =>
    obtain ⟨k', e⟩ := p
    by_cases h : k' = k <;> simp [appendWebsite, lookupEnt, h, ih]

theorem lookupEnt_appendWebsite_ne (m : EntityMap) (k : String) (d : Destination)
    (u : String) (h : u ≠ k) :
    lookupEnt (appendWebsite m k d) u = lookupEnt m u := by
  induction m with
  | nil => rfl
  | cons p rest ih =>
    obtain ⟨k', e⟩ := p
    by_cases hk : k' = k
    · subst hk
      have : ¬ (k' = u) := fun he => h he.symm
      simp [appendWebsite, lookupEnt, this]
    · by_cases hu : k' = u <;> simp [appendWebsite, lookupEnt, hk, hu, h, ih]

theorem lookupEnt_eq_none (m : EntityMap) (u : String) (h : containsKey m u = false) :
    lookupEnt m u = none := by
  induction m with
  | nil => rfl
  | cons p rest ih =>
    obtain ⟨k, e⟩ := p
    simp [containsKey, List.any_cons] at h
    have h2 : containsKey rest u = false := by
      simp [containsKey]
      exact h.2
    simp [lookupEnt, h.1, ih h2]

theorem lookupEnt_isSome (m : EntityMap) (u : String) (h : containsKey m u = true) :
    ∃ e, lookupEnt m u = some e := by
  induction m with
  | nil => simp [containsKey] at h
  | cons p rest ih =>
    obtain ⟨k, e⟩ := p
    by_cases hk : k = u
    · exact ⟨e, by simp [lookupEnt, hk]⟩
    · simp [containsKey, List.any_cons, hk] at h
      obtain ⟨e', he⟩ := ih (by simp [containsKey, h])
      exact ⟨e', by simp [lookupEnt, hk, he]⟩

theorem seenHas_keys (m : EntityMap) (u : String) :
    seenHas (m.map Prod.fst) u = containsKey m u := by
  induction m with
  | nil => rfl
  | cons p rest ih =>
    obtain ⟨k, e⟩ := p
    by_cases hk : k = u
    · simp [seenHas, containsKey, List.any_cons, hk]
    · simp only [List.map_cons, seenHas, containsKey, List.any_cons]
      simp [hk, ih, containsKey]

theorem appendWebsite_append_new (m : EntityMap) (k : String) (e : Entity)
    (d : Destination) (h : containsKey m k = false) :
    appendWebsite (m ++ [(k, e)]) k d = m ++ [(k, { e with websites := e.websites ++ [d] })] := by
  induction m with
  | nil => simp [appendWebsite]
  | cons p rest ih =>
    obtain ⟨k', e'⟩ := p
    simp [containsKey, List.any_cons] at h
    have h2 : containsKey rest k = false := by
      simp [containsKey]
      exact h.2
    simp [appendWebsite, h.1, ih h2]

theorem lookupEnt_append_single_ne (m : EntityMap) (k : String) (e : Entity)
    (u : String) (h : u ≠ k) :
    lookupEnt (m ++ [(k, e)]) u = lookupEnt m u := by
  induction m with
  | nil =>
    have : ¬ (k = u) := fun he => h he.symm
    simp [lookupEnt, this]
  | cons p rest ih =>
    obtain ⟨k', e'⟩ := p
    by_cases hk : k' = u <;> simp [lookupEnt, hk, ih]

theorem lookupEnt_append_single_self (m : EntityMap) (k : String) (e : Entity)
    (h : containsKey m k = false) :
    lookupEnt (m ++ [(k, e)]) k = some e := by
  induction m with
  | nil => simp [lookupEnt]
  | cons p rest ih =>
    obtain ⟨k', e'⟩ := p
    simp [containsKey, List.any_cons] at h
    have h2 : containsKey rest k = false := by
      simp [containsKey]
      exact h.2
    simp [lookupEnt, h.1, ih h2]

theorem seenHas_append (l1 l2 : List String) (x : String) :
    seenHas (l1 ++ l2) x = (seenHas l1 x || seenHas l2 x) := by
  induction l1 with
  | nil => simp [seenHas]
  | cons s rest ih => simp [seenHas, ih, Bool.or_assoc]

theorem specKeysFrom_congr (bs : List Binding) :
    ∀ seen1 seen2, (∀ x, seenHas seen1 x = seenHas seen2 x) →
      specKeysFrom seen1 bs = specKeysFrom seen2 bs := by
  induction bs with
  | nil => intro seen1 seen2 _; rfl
  | cons b rest ih =>
    intro seen1 seen2 h
    by_cases hk : keepRow b
    · by_cases hs : seenHas seen1 b.item
      · have hs2 : seenHas seen2 b.item = true := by rw [← h b.item]; exact hs
        simp [specKeysFrom, hk, hs, hs2, ih seen1 seen2 h]
      · have hs2 : seenHas seen2 b.item = false := by
          rw [← h b.item]; simpa using hs
        simp [specKeysFrom, hk, hs, hs2]
        exact ih _ _ (fun x => by simp [seenHas, h x])
    · simp [specKeysFrom, hk, ih seen1 seen2 h]

theorem seenHas_cons_comm (l : List String) (a x : String) :
    seenHas (l ++ [a]) x = seenHas (a :: l) x := by
  simp [seenHas_append, seenHas, Bool.or_comm]

/-- Refinement, key part: the keys of the entity map built by the
normalizer loop are the accumulator's keys followed by the surviving
rows' entity URIs in first-seen order. -/
theorem transformGo_keys : ∀ (bs : List Binding) (acc m : EntityMap),
    transformGo acc bs = some m →
    m.map Prod.fst = acc.map Prod.fst ++ specKeysFrom (acc.map Prod.fst) bs := by
  intro bs
  induction bs with
  | nil =>
    intro acc m h
    simp only [transformGo] at h
    cases h
    simp [specKeysFrom]
  | cons b rest ih =>
    intro acc m h
    simp only [transformGo] at h
    cases hstep : transformStep acc b with
    | none => rw [hstep] at h; cases h
    | some acc2 =>
      rw [hstep] at h
      simp only [transformStep] at hstep
      cases hp : parseURL b.website with
      | none => rw [hp] at hstep; cases hstep
      | some u =>
        rw [hp] at hstep
        by_cases ho : isOnion u
        · simp only [ho, if_true] at hstep
          cases hstep
          have hkeep : keepRow b = false := by simp [keepRow, rowDest, hp, ho]
          simp [specKeysFrom, hkeep, ih _ _ h]
        · simp only [ho, Bool.false_eq_true, if_false, Option.some.injEq] at hstep
          have hkeep : keepRow b = true := by simp [keepRow, rowDest, hp, ho]
          by_cases hc : containsKey acc b.item
          · rw [if_pos hc] at hstep
            subst hstep
            have hseen : seenHas (acc.map Prod.fst) b.item = true := by
              rw [seenHas_keys]; exact hc
            have hih := ih _ _ h
            rw [appendWebsite_keys] at hih
            simp [specKeysFrom, hkeep, hseen, hih]
          · rw [if_neg hc] at hstep
            have hc' : containsKey acc b.item = false := by simpa using hc
            rw [appendWebsite_append_new _ _ _ _ hc'] at hstep
            subst hstep
            have hseen : seenHas (acc.map Prod.fst) b.item = false := by
              rw [seenHas_keys]; exact hc'
            have hih := ih _ _ h
            simp only [List.map_append, List.map_cons, List.map_nil] at hih
            rw [specKeysFrom_congr rest _ _ (fun x => seenHas_cons_comm _ _ _)] at hih
            simp [specKeysFrom, hkeep, hseen, hih]

/-- Refinement, entity part: after the normalizer loop, each URI's
entity is the accumulator's entry extended by the destinations the rows
contribute, or a fresh entity taking its label and description from the
first surviving row with that URI. -/
theorem transformGo_lookup : ∀ (bs : List Binding) (acc m : EntityMap),
    transformGo acc bs = some m → ∀ uri,
    lookupEnt m uri =
      match lookupEnt acc uri with
      | some e0 => some { e0 with websites := e0.websites ++ specDests bs uri }
      | none =>
        match firstKept bs uri with
        | some b0 => some { label := b0.itemLabel, description := b0.itemDescription,
                            websites := specDests bs uri }
        | none => none := by
  intro bs
  induction bs with
  | nil =>
    intro acc m h uri
    simp only [transformGo] at h
    cases h
    cases hl : lookupEnt acc uri <;> simp [specDests, firstKept, hl]
  | cons b rest ih =>
    intro acc m h uri
    simp only [transformGo] at h
    cases hstep : transformStep acc b with
    | none => rw [hstep] at h; cases h
    | some acc2 =>
      rw [hstep] at h
      simp only [transformStep] at hstep
      cases hp : parseURL b.website with
      | none => rw [hp] at hstep; cases hstep
      | some u =>
        rw [hp] at hstep
        by_cases ho : isOnion u
        · simp only [ho, if_true] at hstep
          cases hstep
          have hkeep : keepRow b = false := by simp [keepRow, rowDest, hp, ho]
          have hrd : rowDest b = none := by simp [rowDest, hp, ho]
          have hih := ih _ _ h uri
          simp [specDests, firstKept, hkeep, hrd]
          exact hih
        · simp only [ho, Bool.false_eq_true, if_false, Option.some.injEq] at hstep
          have hkeep : keepRow b = true := by simp [keepRow, rowDest, hp, ho]
          have hrd : rowDest b = some { url := u, rank := parseRank b.rank } := by
            simp [rowDest, hp, ho]
          by_cases hc : containsKey acc b.item
          · rw [if_pos hc] at hstep
            subst hstep
            have hih := ih _ _ h uri
            by_cases hu : b.item = uri
            · subst hu
              obtain ⟨e0, he0⟩ := lookupEnt_isSome acc b.item hc
              rw [lookupEnt_appendWebsite_self, he0] at hih
              simp [specDests, hrd, he0]
              simp [he0] at hih
              rw [hih]
            · rw [lookupEnt_appendWebsite_ne _ _ _ _ (fun he => hu he.symm)] at hih
              have hb : (b.item == uri) = false := by simp [hu]
              simp only [specDests, firstKept, hrd, hkeep, hb, Bool.true_and, if_false]
              exact hih
          · rw [if_neg hc] at hstep
            have hc' : containsKey acc b.item = false := by simpa using hc
            rw [appendWebsite_append_new _ _ _ _ hc'] at hstep
            subst hstep
            have hih := ih _ _ h uri
            by_cases hu : b.item = uri
            · subst hu
              rw [lookupEnt_append_single_self _ _ _ hc'] at hih
              rw [lookupEnt_eq_none _ _ hc']
              simp only [List.nil_append] at hih
              simp [specDests, firstKept, hrd, hkeep]
              rw [hih]
              simp
            · rw [lookupEnt_append_single_ne _ _ _ _ (fun he => hu he.symm)] at hih
              have hb : (b.item == uri) = false := by simp [hu]
              simp only [specDests, firstKept, hrd, hkeep, hb, Bool.true_and, if_false]
              exact hih

theorem specKeysFrom_not_seen : ∀ (bs : List Binding) (seen : List String) (x : String),
    x ∈ specKeysFrom seen bs → seenHas seen x = false := by
  intro bs
  induction bs with
  | nil => intro seen x hx; cases hx
  | cons b rest ih =>
    intro seen x hx
    by_cases hk : keepRow b
    · by_cases hs : seenHas seen b.item
      · exact ih seen x (by simpa [specKeysFrom, hk, hs] using hx)
      · simp only [specKeysFrom, hk, if_true, hs, Bool.false_eq_true, if_false] at hx
        rcases List.mem_cons.mp hx with heq | hmem
        · subst heq; simpa using hs
        · have := ih _ x hmem
          simp only [seenHas, Bool.or_eq_false_iff] at this
          exact this.2
    · exact ih seen x (by simpa [specKeysFrom, hk] using hx)

theorem specKeysFrom_nodup : ∀ (bs : List Binding) (seen : List String),
    (specKeysFrom seen bs).Nodup := by
  intro bs
  induction bs with
  | nil => intro seen; simp [specKeysFrom]
  | cons b rest ih =>
    intro seen
    by_cases hk : keepRow b
    · by_cases hs : seenHas seen b.item
      · simpa [specKeysFrom, hk, hs] using ih seen
      · simp only [specKeysFrom, hk, if_true, hs, Bool.false_eq_true, if_false]
        refine List.nodup_cons.mpr ⟨fun hmem => ?_, ih _⟩
        have := specKeysFrom_not_seen rest _ b.item hmem
        simp [seenHas] at this
    · simpa [specKeysFrom, hk] using ih seen

theorem specKeysFrom_mem : ∀ (bs : List Binding) (seen : List String) (x : String),
    x ∈ specKeysFrom seen bs → ∃ b ∈ bs, keepRow b = true ∧ b.item = x := by
  intro bs
  induction bs with
  | nil => intro seen x hx; cases hx
  | cons b rest ih =>
    intro seen x hx
    by_cases hk : keepRow b
    · by_cases hs : seenHas seen b.item
      · obtain ⟨b', hb', hkb', hib'⟩ := ih seen x (by simpa [specKeysFrom, hk, hs] using hx)
        exact ⟨b', List.mem_cons_of_mem _ hb', hkb', hib'⟩
      · simp only [specKeysFrom, hk, if_true, hs, Bool.false_eq_true, if_false] at hx
        rcases List.mem_cons.mp hx with heq | hmem
        · exact ⟨b, List.mem_cons_self _ _, hk, heq.symm⟩
        · obtain ⟨b', hb', hkb', hib'⟩ := ih _ x hmem
          exact ⟨b', List.mem_cons_of_mem _ hb', hkb', hib'⟩
    · obtain ⟨b', hb', hkb', hib'⟩ := ih seen x (by simpa [specKeysFrom, hk] using hx)
      exact ⟨b', List.mem_cons_of_mem _ hb', hkb', hib'⟩

theorem lookupEnt_of_mem_nodup : ∀ (m : EntityMap) (uri : String) (e : Entity),
    (m.map Prod.fst).Nodup → (uri, e) ∈ m → lookupEnt m uri = some e := by
  intro m
  induction m with
  | nil => intro uri e _ hm; cases hm
  | cons p rest ih =>
    intro uri e hnd hm
    obtain ⟨k, e'⟩ := p
    simp only [List.map_cons, List.nodup_cons] at hnd
    rcases List.mem_cons.mp hm with heq | hmem
    · cases heq
      simp [lookupEnt]
    · by_cases hk : k = uri
      · subst hk
        exact absurd (List.mem_map.mpr ⟨(k, e), hmem, rfl⟩) hnd.1
      · simp [lookupEnt, hk, ih uri e hnd.2 hmem]

theorem mem_of_lookupEnt : ∀ (m : EntityMap) (uri : String) (e : Entity),
    lookupEnt m uri = some e → (uri, e) ∈ m := by
  intro m
  induction m with
  | nil => intro uri e h; cases h
  | cons p rest ih =>
    intro uri e h
    obtain ⟨k, e'⟩ := p
    by_cases hk : k = uri
    · subst hk
      simp only [lookupEnt] at h
      rw [if_pos (by simp)] at h
      cases h
      exact List.mem_cons_self _ _
    · simp only [lookupEnt] at h
      rw [if_neg (by simpa using hk)] at h
      exact List.mem_cons_of_mem _ (ih uri e h)

theorem specDests_ne_nil_of_firstKept : ∀ (bs : List Binding) (uri : String) (b0 : Binding),
    firstKept bs uri = some b0 → specDests bs uri ≠ [] := by
  intro bs
  induction bs with
  | nil => intro uri b0 h; cases h
  | cons b rest ih =>
    intro uri b0 h
    by_cases hp : keepRow b && b.item == uri
    · have hp' := hp
      rw [Bool.and_eq_true] at hp'
      have hkeep : (rowDest b).isSome = true := by simpa [keepRow] using hp'.1
      obtain ⟨d, hd⟩ := Option.isSome_iff_exists.mp hkeep
      simp only [specDests, hd]
      rw [if_pos hp'.2]
      simp
    · simp only [firstKept, if_neg hp] at h
      have := ih uri b0 h
      cases hd : rowDest b with
      | none => simpa [specDests, hd] using this
      | some d =>
        by_cases hi : b.item == uri
        · exfalso
          apply hp
          simp [keepRow, hd, hi]
        · simpa [specDests, hd, hi] using this

theorem firstKept_of_mem : ∀ (bs : List Binding) (b : Binding),
    b ∈ bs → keepRow b = true → ∃ b0, firstKept bs b.item = some b0 := by
  intro bs
  induction bs with
  | nil => intro b h; cases h
  | cons b' rest ih =>
    intro b hb hk
    by_cases hp : keepRow b' && b'.item == b.item
    · exact ⟨b', by simp [firstKept, hp]⟩
    · rcases List.mem_cons.mp hb with heq | hmem
      · subst heq
        exact absurd (by simp [hk]) hp
      · obtain ⟨b0, hb0⟩ := ih b hmem hk
        exact ⟨b0, by simp only [firstKept, if_neg hp]; exact hb0⟩

theorem mem_specDests_of_mem : ∀ (bs : List Binding) (b : Binding) (d : Destination),
    b ∈ bs → rowDest b = some d → d ∈ specDests bs b.item := by
  intro bs
  induction bs with
  | nil => intro b d h; cases h
  | cons b' rest ih =>
    intro b d hb hd
    rcases List.mem_cons.mp hb with heq | hmem
    · subst heq
      simp [specDests, hd]
    · have := ih b d hmem hd
      cases hd' : rowDest b' with
      | none => simpa [specDests, hd'] using this
      | some d' =>
        by_cases hi : b'.item == b.item
        · simp [specDests, hd', hi, this]
        · simpa [specDests, hd', hi] using this

/-- Skipping: a row whose URL parses to an onion address leaves the
normalizer state untouched wherever it occurs. -/
theorem transformGo_skip : ∀ (xs : List Binding) (acc : EntityMap) (b : Binding)
    (ys : List Binding) (u : URLModel), parseURL b.website = some u → isOnion u = true →
    transformGo acc (xs ++ b :: ys) = transformGo acc (xs ++ ys) := by
  intro xs
  induction xs with
  | nil =>
    intro acc b ys u hp ho
    simp only [List.nil_append, transformGo, transformStep, hp, ho, if_true]
  | cons x rest ih =>
    intro acc b ys u hp ho
    simp only [List.cons_append, transformGo]
    cases transformStep acc x with
    | none => rfl
    | some acc2 => exact ih acc2 b ys u hp ho

/-- Abort: a row whose URL does not parse makes the whole normalizer
run fail, regardless of its position. -/
theorem transformGo_abort : ∀ (xs : List Binding) (acc : EntityMap) (b : Binding)
    (ys : List Binding), parseURL b.website = none →
    transformGo acc (xs ++ b :: ys) = none := by
  intro xs
  induction xs with
  | nil =>
    intro acc b ys hp
    simp only [List.nil_append, transformGo, transformStep, hp]
  | cons x rest ih =>
    intro acc b ys hp
    simp only [List.cons_append, transformGo]
    cases transformStep acc x with
    | none => rfl
    | some acc2 => exact ih acc2 b ys hp

/-!
Lemmas about the token classifier scan.
-/

theorem qDigitScan_of_parts : ∀ (l : List Char) (c d : Char) (r : List Char),
    (c = 'q' ∨ c = 'Q') → d.isDigit = true → qDigitScan (l ++ c :: d :: r) = true := by
  intro l
  induction l with
  | nil =>
    intro c d r hc hd
    rcases hc with h | h <;> subst h <;> simp [qDigitScan, hd]
  | cons x rest ih =>
    intro c d r hc hd
    cases hl : rest ++ c :: d :: r with
    | nil => exact absurd hl (by simp)
    | cons z zs =>
      simp only [List.cons_append, hl, qDigitScan]
      rw [← hl, ih c d r hc hd]
      simp

theorem qDigitScan_parts : ∀ (cs : List Char), qDigitScan cs = true →
    ∃ l c d r, cs = l ++ c :: d :: r ∧ (c = 'q' ∨ c = 'Q') ∧ d.isDigit = true := by
  intro cs
  induction cs with
  | nil => intro h; simp [qDigitScan] at h
  | cons x xs ih =>
    intro h
    cases xs with
    | nil => simp [qDigitScan] at h
    | cons y ys =>
      simp only [qDigitScan, Bool.or_eq_true, Bool.and_eq_true] at h
      rcases h with ⟨hq, hd⟩ | htail
      · refine ⟨[], x, y, ys, rfl, ?_, hd⟩
        simpa using hq
      · obtain ⟨l, c, d, r, heq, hc, hd⟩ := ih htail
        exact ⟨x :: l, c, d, r, by simp [heq], hc, hd⟩

/-!
Lemmas about permalink derivation.
-/

theorem toLower_digit (c : Char) (h : c.isDigit = true) : c.toLower = c := by
  simp only [Char.isDigit, Bool.and_eq_true, decide_eq_true_eq] at h
  have h2 : c.toNat ≤ 57 := UInt32.toNat_le_of_le (by decide) h.2
  simp only [Char.toLower]
  rw [if_neg]
  omega

theorem isLineTerm_digit (c : Char) (h : c.isDigit = true) : isLineTerm c = false := by
  simp only [Char.isDigit, Bool.and_eq_true, decide_eq_true_eq] at h
  simp only [isLineTerm, Bool.or_eq_false_iff, beq_eq_false_iff_ne]
  exact ⟨⟨⟨fun he => absurd (he ▸ h.1) (by decide), fun he => absurd (he ▸ h.1) (by decide)⟩,
    fun he => absurd (he ▸ h.2) (by decide)⟩, fun he => absurd (he ▸ h.2) (by decide)⟩

theorem isSuffixOf_exists {pat l : List Char} (h : pat.isSuffixOf l = true) :
    ∃ t, l = t ++ pat := by
  rw [List.isSuffixOf_iff_suffix] at h
  obtain ⟨t, ht⟩ := h
  exact ⟨t, ht.symm⟩

theorem entityQidMatch_eval (p : String) (ds : List Char) (hne : ds ≠ [])
    (hd : ∀ c ∈ ds, c.isDigit = true) (hlt : ∀ c ∈ p.data, isLineTerm c = false) :
    entityQidMatch (p ++ "/entity/Q" ++ String.mk ds) = some ('Q' :: ds) := by
  have hqd : Char.isDigit 'Q' = false := by decide
  have hdata : (p ++ "/entity/Q" ++ String.mk ds).data = p.data ++ "/entity/Q".data ++ ds := by
    simp
  have hds : ∀ c ∈ ds.reverse, Char.isDigit c = true :=
    fun c hc => hd c (List.mem_reverse.mp hc)
  have htail : ("/entity/Q".data.reverse ++ p.data.reverse).takeWhile Char.isDigit = [] := by
    rw [show "/entity/Q".data.reverse = 'Q' :: "/entity/".data.reverse from rfl,
      List.cons_append, List.takeWhile_cons, hqd]
    simp
  have hTake : ((p.data ++ "/entity/Q".data ++ ds).reverse.takeWhile Char.isDigit).reverse = ds := by
    rw [show (p.data ++ "/entity/Q".data ++ ds).reverse
        = ds.reverse ++ ("/entity/Q".data.reverse ++ p.data.reverse) by
      simp [List.reverse_append]]
    rw [List.takeWhile_append_of_pos hds, htail]
    simp
  have hDrop : ((p.data ++ "/entity/Q".data ++ ds).reverse.dropWhile Char.isDigit).reverse
      = p.data ++ "/entity/Q".data := by
    rw [show (p.data ++ "/entity/Q".data ++ ds).reverse
        = ds.reverse ++ ("/entity/Q".data.reverse ++ p.data.reverse) by
      simp [List.reverse_append]]
    have hfix : List.dropWhile Char.isDigit ("/entity/Q".data.reverse ++ p.data.reverse)
        = "/entity/Q".data.reverse ++ p.data.reverse := by
      rw [show "/entity/Q".data.reverse = 'Q' :: "/entity/".data.reverse from rfl,
        List.cons_append, List.dropWhile_cons, hqd]
      simp
    rw [List.dropWhile_append_of_pos hds, hfix, List.reverse_append, List.reverse_reverse,
      List.reverse_reverse]
  have hsuf : "/entity/Q".data.isSuffixOf (p.data ++ "/entity/Q".data) = true := by
    rw [List.isSuffixOf_iff_suffix]
    exact ⟨p.data, rfl⟩
  have hall : (p.data ++ "/entity/Q".data ++ ds).all (fun c => !(isLineTerm c)) = true := by
    rw [List.all_eq_true]
    intro c hc
    rcases List.mem_append.mp hc with hc' | hcds
    · rcases List.mem_append.mp hc' with hcp | hcq
      · simp [hlt c hcp]
      · have : ∀ x ∈ "/entity/Q".data, isLineTerm x = false := by decide
        simp [this c hcq]
    · simp [isLineTerm_digit c (hd c hcds)]
  simp only [entityQidMatch, hdata, hTake, hDrop]
  rw [if_neg (by simpa [List.isEmpty_iff] using hne), if_pos (by rw [hsuf, hall]; rfl)]

theorem entityQidMatch_shape (uri : String) (qid : List Char)
    (h : entityQidMatch uri = some qid) :
    ∃ t ds, uri.data = t ++ "/entity/Q".data ++ ds ∧ ds ≠ [] ∧
      ∀ c ∈ ds, c.isDigit = true := by
  simp only [entityQidMatch] at h
  by_cases h1 : ((uri.data.reverse.takeWhile Char.isDigit).reverse).isEmpty
  · rw [if_pos h1] at h; cases h
  · rw [if_neg h1] at h
    by_cases h2 : ("/entity/Q".data.isSuffixOf
        ((uri.data.reverse.dropWhile Char.isDigit).reverse))
        && uri.data.all (fun c => !(isLineTerm c))
    · rw [Bool.and_eq_true] at h2
      obtain ⟨t, ht⟩ := isSuffixOf_exists h2.1
      refine ⟨t, (uri.data.reverse.takeWhile Char.isDigit).reverse, ?_, ?_, ?_⟩
      · conv_lhs => rw [← List.reverse_reverse uri.data,
          ← List.takeWhile_append_dropWhile (p := Char.isDigit) (l := uri.data.reverse)]
        rw [List.reverse_append, ht, List.append_assoc]
      · intro hds
        exact h1 (by rw [hds]; rfl)
      · intro c hc
        exact List.mem_takeWhile_imp (List.mem_reverse.mp hc)
    · rw [if_neg h2] at h; cases h

/-!
The claims.
-/

/-- C1: the Result Normalizer deduplicates rows by entity URI — rows
sharing an entity URI accumulate destinations into the single entity
created at the URI's first non-skipped occurrence, cross-entity order
in the resulting EntityMap equals first-seen row order and nothing is
re-sorted; and on the spec's concrete scenario (E1/a.example
PREFERRED, E2/b.example NORMAL, E1/x.onion PREFERRED) the map has
exactly the two entities [E1, E2] in order with E1 holding a single
destination. -/
theorem c1_normalizer_dedup_order :
    (∀ (rows : List Binding) (m : EntityMap), transformSparqlResponse rows = some m →
      (m.map Prod.fst).Nodup ∧
      m.map Prod.fst = specKeysFrom [] rows ∧
      ∀ uri e, (uri, e) ∈ m → e.websites = specDests rows uri ∧
        ∃ b0, firstKept rows uri = some b0 ∧ e.label = b0.itemLabel ∧
          e.description = b0.itemDescription) ∧
    (transformSparqlResponse scenarioRows = some scenarioMap ∧
      scenarioMap.map Prod.fst = ["E1", "E2"] ∧
      scenarioMap.head? = some ("E1", entE1a) ∧
      ∀ e, ("E1", e) ∈ scenarioMap → e.websites.length = 1) := by
  constructor
  · intro rows m h
    have hkeys := transformGo_keys rows [] m h
    simp only [List.map_nil, List.nil_append] at hkeys
    have hnd : (m.map Prod.fst).Nodup := by
      rw [hkeys]; exact specKeysFrom_nodup rows []
    refine ⟨hnd, hkeys, ?_⟩
    intro uri e hmem
    have hlook := lookupEnt_of_mem_nodup m uri e hnd hmem
    have hchar := transformGo_lookup rows [] m h uri
    rw [hlook] at hchar
    simp only [lookupEnt] at hchar
    cases hfk : firstKept rows uri with
    | none => rw [hfk] at hchar; cases hchar
    | some b0 =>
      rw [hfk] at hchar
      injection hchar with he
      rw [he]
      exact ⟨rfl, b0, rfl, rfl, rfl⟩
  · refine ⟨by rfl, by rfl, by rfl, ?_⟩
    intro e he
    simp only [scenarioMap, List.mem_cons, List.not_mem_nil, or_false, Prod.mk.injEq] at he
    rcases he with ⟨-, he⟩ | ⟨h12, -⟩
    · subst he
      rfl
    · exact absurd h12 (by decide)

/-- Witness for C1: the general normalizer characterization applied to
the spec's concrete scenario rows. -/
theorem c1_normalizer_dedup_order_witness :
    (scenarioMap.map Prod.fst).Nodup ∧
    scenarioMap.map Prod.fst = specKeysFrom [] scenarioRows ∧
    ∀ uri e, (uri, e) ∈ scenarioMap → e.websites = specDests scenarioRows uri ∧
      ∃ b0, firstKept scenarioRows uri = some b0 ∧ e.label = b0.itemLabel ∧
        e.description = b0.itemDescription :=
  c1_normalizer_dedup_order.1 scenarioRows scenarioMap (by rfl)

/-- C2: a row whose destination host ends in ".onion" is skipped
entirely — removing or inserting it does not change the normalizer's
result — and an entity URI all of whose rows are onion rows is absent
from the returned EntityMap. -/
theorem c2_onion_rows_skipped :
    (∀ (xs ys : List Binding) (b : Binding) (u : URLModel),
      parseURL b.website = some u → isOnion u = true →
      transformSparqlResponse (xs ++ b :: ys) = transformSparqlResponse (xs ++ ys)) ∧
    (∀ (rows : List Binding) (m : EntityMap) (uri : String),
      transformSparqlResponse rows = some m →
      (∀ b ∈ rows, b.item = uri → ∃ u, parseURL b.website = some u ∧ isOnion u = true) →
      uri ∉ m.map Prod.fst) := by
  constructor
  · intro xs ys b u hp ho
    exact transformGo_skip xs [] b ys u hp ho
  · intro rows m uri h hall hmem
    have hkeys := transformGo_keys rows [] m h
    simp only [List.map_nil, List.nil_append] at hkeys
    rw [hkeys] at hmem
    obtain ⟨b, hb, hkb, hib⟩ := specKeysFrom_mem rows [] uri hmem
    obtain ⟨u, hu, hou⟩ := hall b hb hib
    simp [keepRow, rowDest, hu, hou] at hkb

/-- Witness for C2: inserting the scenario's onion row after the E2 row
changes nothing, and an entity URI whose only row is an onion row is
absent from the result. -/
theorem c2_onion_rows_skipped_witness :
    transformSparqlResponse ([rowE2b] ++ rowE1onion :: []) =
      transformSparqlResponse ([rowE2b] ++ []) ∧
    "E1" ∉ (([("E2", entE2b)] : EntityMap).map Prod.fst) :=
  ⟨c2_onion_rows_skipped.1 [rowE2b] [] rowE1onion
      { scheme := "http", hostname := "x.onion", rest := "/" } (by rfl) (by rfl),
   c2_onion_rows_skipped.2 [rowE2b, rowE1onion] _ "E1" (by rfl)
     (by
       intro b hb hib
       rcases List.mem_cons.mp hb with hb' | hb'
       · rw [hb'] at hib
         exact absurd hib (by decide)
       · rw [List.mem_singleton.mp hb']
         exact ⟨{ scheme := "http", hostname := "x.onion", rest := "/" }, by rfl, by rfl⟩)⟩

/-- C3: on a non-empty EntityMap, a true back-navigation signal means
no navigation is scheduled (results stay displayed with status
"Found."), and a false signal schedules navigation to the first
destination URL of the first-inserted entity, with delay 0 for a
direct-lookup token and 1000 otherwise. -/
theorem c3_decision_engine :
    ∀ (query : String) (rows : List Binding) (m : EntityMap),
      transformSparqlResponse rows = some m → m ≠ [] →
      (loadHandler query true rows true =
         some { status := "Found.", nav := Navigation.noNav, displayed := some m }) ∧
      (loadHandler query true rows false =
         some { status := "Redirecting...",
                nav := Navigation.scheduled (if isDirectLookup query then 0 else 1000)
                         (navTarget m),
                displayed := some m }) ∧
      (∀ uri e d, m.head? = some (uri, e) → e.websites.head? = some d →
         navTarget m = some d.url) := by
  intro query rows m h hne
  have hemp : isEmpty m = false := by
    cases m with
    | nil => exact absurd rfl hne
    | cons a l => rfl
  refine ⟨?_, ?_, ?_⟩
  · simp [loadHandler, h, hemp]
  · simp [loadHandler, h, hemp]
  · intro uri e d hh hw
    simp [navTarget, hh, hw]

/-- Witness for C3: the decision engine on the concrete scenario with a
non-direct-lookup token. -/
theorem c3_decision_engine_witness :
    (loadHandler "w" true scenarioRows true =
       some { status := "Found.", nav := Navigation.noNav, displayed := some scenarioMap }) ∧
    (loadHandler "w" true scenarioRows false =
       some { status := "Redirecting...",
              nav := Navigation.scheduled (if isDirectLookup "w" then 0 else 1000)
                       (navTarget scenarioMap),
              displayed := some scenarioMap }) ∧
    (∀ uri e d, scenarioMap.head? = some (uri, e) → e.websites.head? = some d →
       navTarget scenarioMap = some d.url) :=
  c3_decision_engine "w" scenarioRows scenarioMap (by rfl) (by decide)

/-- C4: the token classifier marks a token as direct lookup exactly
when it contains, case-insensitively, a letter Q followed by one or
more digits somewhere in the string; every other token is a search
(the classifier is total, so no token is rejected). -/
theorem c4_token_classifier (token : String) :
    isDirectLookup token = true ↔
      ∃ (l : List Char) (c : Char) (ds : List Char) (r : List Char),
        token.data = l ++ c :: (ds ++ r) ∧ (c = 'q' ∨ c = 'Q') ∧ ds ≠ [] ∧
          ∀ x ∈ ds, x.isDigit = true := by
  constructor
  · intro h
    obtain ⟨l, c, d, r, heq, hc, hd⟩ := qDigitScan_parts token.data h
    exact ⟨l, c, [d], r, by simpa using heq, hc, by simp, by simpa using hd⟩
  · rintro ⟨l, c, ds, r, heq, hc, hne, hd⟩
    cases ds with
    | nil => exact absurd rfl hne
    | cons d ds2 =>
      have hscan := qDigitScan_of_parts l c d (ds2 ++ r) hc (hd d (by simp))
      simp only [isDirectLookup, heq]
      simpa using hscan

/-- C5: each query builder embeds its (for lookups, uppercased)
argument exactly once, at the single hole of an otherwise fixed,
argument-independent query skeleton. -/
theorem c5_query_skeletons :
    (∀ id, prepareSparqlLookupQuery id = lookupQueryPre ++ id.toUpper ++ lookupQueryPost) ∧
    (∀ term, prepareSparqlSearchQuery term = searchQueryPre ++ term ++ searchQueryPost) :=
  ⟨fun _ => rfl, fun _ => rfl⟩

/-- C6: every entity in a normalizer-produced EntityMap has a
non-empty destination list, and when the map is non-empty its first
entry in insertion order is the top result the decision engine
consumes (the scheduled navigation target is that entry's first
destination). -/
theorem c6_entitymap_invariant :
    ∀ (rows : List Binding) (m : EntityMap), transformSparqlResponse rows = some m →
      (∀ uri e, (uri, e) ∈ m → e.websites ≠ []) ∧
      (∀ (query uri : String) (e : Entity), m.head? = some (uri, e) →
        loadHandler query true rows false =
          some { status := "Redirecting...",
                 nav := Navigation.scheduled (if isDirectLookup query then 0 else 1000)
                          ((e.websites.head?).map (fun d => d.url)),
                 displayed := some m }) := by
  intro rows m h
  have hkeys := transformGo_keys rows [] m h
  simp only [List.map_nil, List.nil_append] at hkeys
  have hnd : (m.map Prod.fst).Nodup := by
    rw [hkeys]; exact specKeysFrom_nodup rows []
  constructor
  · intro uri e hmem
    have hlook := lookupEnt_of_mem_nodup m uri e hnd hmem
    have hchar := transformGo_lookup rows [] m h uri
    rw [hlook] at hchar
    simp only [lookupEnt] at hchar
    cases hfk : firstKept rows uri with
    | none => rw [hfk] at hchar; cases hchar
    | some b0 =>
      rw [hfk] at hchar
      injection hchar with he
      rw [he]
      exact specDests_ne_nil_of_firstKept rows uri b0 hfk
  · intro query uri e hh
    have hemp : isEmpty m = false := by
      cases m with
      | nil => cases hh
      | cons a l => rfl
    have hnav : navTarget m = (e.websites.head?).map (fun d => d.url) := by
      cases hw : e.websites.head? <;> simp [navTarget, hh, hw]
    simp [loadHandler, h, hemp, hnav]

/-- Witness for C6: the invariant on the concrete scenario map. -/
theorem c6_entitymap_invariant_witness :
    (∀ uri e, (uri, e) ∈ scenarioMap → e.websites ≠ []) ∧
    (∀ (query uri : String) (e : Entity), scenarioMap.head? = some (uri, e) →
      loadHandler query true scenarioRows false =
        some { status := "Redirecting...",
               nav := Navigation.scheduled (if isDirectLookup query then 0 else 1000)
                        ((e.websites.head?).map (fun d => d.url)),
               displayed := some scenarioMap }) :=
  c6_entitymap_invariant scenarioRows scenarioMap (by rfl)

/-- C7: an unknown rank code maps to the `undefined` rank without
throwing, and a surviving row with an unknown rank code still gets its
destination appended (with rank `undefined`) to its entity's list. -/
theorem c7_unknown_rank_tolerated :
    (∀ code, code ≠ "http://wikiba.se/ontology#PreferredRank" →
      code ≠ "http://wikiba.se/ontology#NormalRank" →
      code ≠ "http://wikiba.se/ontology#DeprecatedRank" → parseRank code = none) ∧
    (∀ (rows : List Binding) (m : EntityMap) (b : Binding) (u : URLModel),
      transformSparqlResponse rows = some m → b ∈ rows →
      parseURL b.website = some u → isOnion u = false → parseRank b.rank = none →
      ∃ e, (b.item, e) ∈ m ∧ ({ url := u, rank := none } : Destination) ∈ e.websites) := by
  constructor
  · intro code h1 h2 h3
    simp [parseRank, h1, h2, h3]
  · intro rows m b u h hb hp ho hr
    have hrd : rowDest b = some { url := u, rank := none } := by
      simp [rowDest, hp, ho, hr]
    have hkb : keepRow b = true := by simp [keepRow, hrd]
    obtain ⟨b0, hb0⟩ := firstKept_of_mem rows b hb hkb
    have hchar := transformGo_lookup rows [] m h b.item
    simp only [lookupEnt] at hchar
    rw [hb0] at hchar
    exact ⟨_, mem_of_lookupEnt m b.item _ hchar, mem_specDests_of_mem rows b _ hb hrd⟩

/-- Witness for C7: the unknown code "mystery" yields no rank, and a
single-row response with that code still produces the destination. -/
theorem c7_unknown_rank_tolerated_witness :
    parseRank "mystery" = none ∧
    ∃ e, ("E1", e) ∈ ([("E1", entE1unknown)] : EntityMap) ∧
      ({ url := aExampleURL, rank := none } : Destination) ∈ e.websites :=
  ⟨c7_unknown_rank_tolerated.1 "mystery" (by decide) (by decide) (by decide),
   c7_unknown_rank_tolerated.2 [rowE1unknown] [("E1", entE1unknown)] rowE1unknown
     aExampleURL (by rfl) (List.mem_singleton.mpr rfl) (by rfl) (by rfl) (by rfl)⟩

/-- C8: a non-success response reaches the terminal "Search failed!"
state with no EntityMap and no navigation; an empty result set after
normalization reaches the terminal "Not found." state with no
navigation. -/
theorem c8_failure_paths :
    (∀ (query : String) (rows : List Binding) (navigatedBack : Bool),
      loadHandler query false rows navigatedBack =
        some { status := "Search failed!", nav := Navigation.noNav, displayed := none }) ∧
    (∀ (query : String) (rows : List Binding) (navigatedBack : Bool) (m : EntityMap),
      transformSparqlResponse rows = some m → m = [] →
      loadHandler query true rows navigatedBack =
        some { status := "Not found.", nav := Navigation.noNav, displayed := none }) := by
  constructor
  · intro query rows back
    simp [loadHandler]
  · intro query rows back m h hm
    subst hm
    simp [loadHandler, h, isEmpty]

/-- Witness for C8: a failed fetch on the scenario rows, and an empty
row list giving the "Not found." outcome. -/
theorem c8_failure_paths_witness :
    loadHandler "w" false scenarioRows true =
      some { status := "Search failed!", nav := Navigation.noNav, displayed := none } ∧
    loadHandler "w" true [] false =
      some { status := "Not found.", nav := Navigation.noNav, displayed := none } :=
  ⟨c8_failure_paths.1 "w" scenarioRows true, c8_failure_paths.2 "w" [] false [] (by rfl) rfl⟩

/-- C9: for a URI of the shape `.../entity/Q<digits>` the permalink is
`//<lowercased id>.<base-domain>`; a URI yielding a permalink
necessarily has that shape (otherwise derivation fails with `none`);
concretely, `.../entity/Q42` with base domain wikimark.net yields
`//q42.wikimark.net`. -/
theorem c9_permalink :
    (∀ (baseHost p : String) (ds : List Char), ds ≠ [] →
      (∀ c ∈ ds, c.isDigit = true) → (∀ c ∈ p.data, isLineTerm c = false) →
      generatePermalink baseHost (p ++ "/entity/Q" ++ String.mk ds) =
        some ("//" ++ String.mk ('q' :: ds) ++ "." ++ baseHost)) ∧
    (∀ (baseHost uri s : String), generatePermalink baseHost uri = some s →
      ∃ t ds, uri.data = t ++ "/entity/Q".data ++ ds ∧ ds ≠ [] ∧
        ∀ c ∈ ds, c.isDigit = true) ∧
    generatePermalink "wikimark.net" "http://www.wikidata.org/entity/Q42" =
      some "//q42.wikimark.net" := by
  refine ⟨?_, ?_, by rfl⟩
  · intro baseHost p ds hne hd hlt
    simp only [generatePermalink, entityQidMatch_eval p ds hne hd hlt]
    have hmap : ('Q' :: ds).map Char.toLower = 'q' :: ds := by
      simp only [List.map_cons]
      rw [show Char.toLower 'Q' = 'q' from by decide]
      have hds : ds.map Char.toLower = ds := by
        conv_rhs => rw [← List.map_id ds]
        exact List.map_congr_left (fun c hc => toLower_digit c (hd c hc))
      rw [hds]
    rw [hmap]
  · intro baseHost uri s h
    cases hq : entityQidMatch uri with
    | none =>
      rw [generatePermalink, hq] at h
      cases h
    | some qid => exact entityQidMatch_shape uri qid hq

/-- Witness for C9: the shape-based computation applied at the concrete
wikidata URI for Q42. -/
theorem c9_permalink_witness :
    generatePermalink "wikimark.net"
        ("http://www.wikidata.org" ++ "/entity/Q" ++ String.mk ['4', '2']) =
      some ("//" ++ String.mk ['q', '4', '2'] ++ "." ++ "wikimark.net") :=
  c9_permalink.1 "wikimark.net" "http://www.wikidata.org" ['4', '2']
    (by decide) (by decide) (by decide)

/-- C10: a row whose destination URL string does not parse makes the
whole normalization throw — no EntityMap is returned at all, and rows
processed before the malformed one are discarded with it. -/
theorem c10_malformed_url_aborts :
    ∀ (xs ys : List Binding) (b : Binding), parseURL b.website = none →
      transformSparqlResponse (xs ++ b :: ys) = none := by
  intro xs ys b hp
  exact transformGo_abort xs [] b ys hp

/-- Witness for C10: a malformed row after a good row destroys the
whole result. -/
theorem c10_malformed_url_aborts_witness :
    transformSparqlResponse ([rowE1a] ++ rowBadURL :: []) = none :=
  c10_malformed_url_aborts [rowE1a] [] rowBadURL (by rfl)

end Wikimark
